import Mathlib

/-!
Verification of the questbook format checker (`src/main.py`).

The markup parser (`Article.parse_questbook_string`) and the diff engine
(`get_diff`) are embedded shallowly: Python strings become `List Char`,
the `Color` literal type becomes a `String` field holding one of the
values `"0"`–`"9"`, `"a"`–`"f"`, `"ENDLINE"`, fallible parsing becomes
`Option Article` (the Python code raises `ValueError`, aborting with no
partial result; `none` models that abort).
-/

/-- The single characters of `STYLE_CODES` from `main.py`.  The Python list
also holds the multi-character string `"ENDLINE"`, which a one-character
regex capture can never equal, so it is irrelevant to the validation scan
and omitted here (the sentinel color itself is modelled by the string
`"ENDLINE"` in `TextEntry.color`). -/
def styleChars : List Char := "0123456789abcdefklmnor".toList

/-- The sixteen color characters, i.e. the class `[0-9a-f]`. -/
def hexChars : List Char := "0123456789abcdef".toList

/-- One `TextEntry` of `main.py`: a color (a one-character color string, or
`"ENDLINE"` for the line-break sentinel) together with the run's text. -/
structure TextEntry where
  color : String
  content : List Char
deriving DecidableEq, Repr

/-- An `Article` of `main.py`: the ordered list of parsed runs. -/
structure Article where
  texts : List TextEntry
deriving DecidableEq, Repr

/-- The sentinel entry appended between lines:
`TextEntry(color="ENDLINE", content="%n")`. -/
def endlineEntry : TextEntry := { color := "ENDLINE", content := ['%', 'n'] }

/-- `raw_article.split("%n")`: split on the leftmost occurrences of the
two-character sequence `%n`. -/
def splitPn : List Char → List (List Char)
  | [] => [[]]
  | '%' :: 'n' :: rest => [] :: splitPn rest
  | c :: rest =>
    match splitPn rest with
    | l :: ls => (c :: l) :: ls
    | [] => [[c]]

/-- The validation scan `re.findall(r"%(.)", line)` followed by the
membership test in `["n", "%"]`: a non-overlapping left-to-right scan in
which each matched `%`-pair consumes both characters, and `.` does not
match a newline (so `%` before a newline or at the end of the line is
simply skipped). -/
def validPct : List Char → Bool
  | '%' :: c :: rest =>
    if c = '\n' then validPct (c :: rest)
    else (c = 'n' || c = '%') && validPct rest
  | _ :: rest => validPct rest
  | [] => true

/-- The validation scan `re.findall(r"§(.)", line)` followed by the
membership test in `STYLE_CODES`, with the same non-overlapping,
newline-skipping semantics as `validPct`. -/
def validSect : List Char → Bool
  | '§' :: c :: rest =>
    if c = '\n' then validSect (c :: rest)
    else (c ∈ styleChars) && validSect rest
  | _ :: rest => validSect rest
  | [] => true

/-- The scanning pass `re.findall(r"(§[0-9a-fr])|([^§]+)", line)` combined
with the loop that follows it: a color escape `§r` resets the current
color to `"0"`, a color escape `§c` with `c ∈ [0-9a-f]` sets it to `c`,
an unmatched `§` (one followed by any other character, or at the end of
the line) is skipped by the regex engine, and a maximal nonempty run of
non-`§` characters is emitted as one `TextEntry` with the current color. -/
def lineEntriesFrom : List Char → String → List TextEntry
  | [], _ => []
  | '§' :: c :: rest, col =>
    if c = 'r' then lineEntriesFrom rest "0"
    else if c ∈ hexChars then lineEntriesFrom rest (String.singleton c)
    else lineEntriesFrom (c :: rest) col
  | ['§'], _ => []
  | c :: rest, col =>
    { color := col, content := c :: rest.takeWhile (· ≠ '§') } ::
      lineEntriesFrom (rest.dropWhile (· ≠ '§')) col
termination_by l _ => l.length
decreasing_by
  all_goals simp_wf
  all_goals try omega
  all_goals exact Nat.lt_succ_of_le (@List.dropWhile_sublist Char rest (fun x => !decide (x = '§'))).length_le

/-- One step of the `for line in text_lines` loop: if `texts` is nonempty,
append the `ENDLINE` sentinel, then append the line's entries (the current
color restarts at `"0"` on every line). -/
def appendLine (acc : List TextEntry) (l : List Char) : List TextEntry :=
  (if acc.isEmpty then acc else acc ++ [endlineEntry]) ++ lineEntriesFrom l "0"

/-- `Article.parse_questbook_string`.  The Python code validates each line
and then extends `texts`, raising `ValueError` at the first invalid escape;
since an exception discards the partially built list, this is equivalent to
checking every line first and building the article only when all lines are
valid, which is how the failure with no partial result is modelled here. -/
def parse_questbook_string (raw : List Char) : Option Article :=
  let lines := splitPn raw
  if lines.all (fun l => validPct l && validSect l) then
    some { texts := lines.foldl appendLine [] }
  else
    none

/-- The text of a line with exactly the material consumed by the scanning
regex `(§[0-9a-fr])|([^§]+)` removed: a `§` followed by a color or reset
code disappears together with its code character, any other `§` disappears
alone (its follower, e.g. a modifier letter, stays), and every other
character — including `%` and `%%` — is kept.  This is the concatenation of
the text runs the scanner emits for the line. -/
def stripSect : List Char → List Char
  | [] => []
  | '§' :: c :: rest =>
    if c = 'r' ∨ c ∈ hexChars then stripSect rest
    else stripSect (c :: rest)
  | ['§'] => []
  | c :: rest => (c :: rest.takeWhile (· ≠ '§')) ++ stripSect (rest.dropWhile (· ≠ '§'))
termination_by l => l.length
decreasing_by
  all_goals simp_wf
  all_goals try omega
  all_goals exact Nat.lt_succ_of_le (@List.dropWhile_sublist Char rest (fun x => !decide (x = '§'))).length_le

/-- Modelled from the spec's words, for refutation only: "that line's text
with all escape sequences removed", reading "escape sequence" as `§`
followed by any member of the valid style-code alphabet (colors, reset and
the modifier codes `k l m n o`), each removed together with its code
character.  A `§` outside that shape is kept (the spec does not say what
happens to it, and no counterexample below depends on that choice). -/
def stripEscapesSpec : List Char → List Char
  | [] => []
  | '§' :: c :: rest =>
    if c ∈ styleChars then stripEscapesSpec rest
    else '§' :: stripEscapesSpec (c :: rest)
  | c :: rest => c :: stripEscapesSpec rest

/-- Number of adjacent positions carrying the two-character sequence `%%`. -/
def countPP : List Char → Nat
  | '%' :: '%' :: rest => countPP ('%' :: rest) + 1
  | _ :: rest => countPP rest
  | [] => 0

/-- Concatenation of the `content` fields of a list of entries. -/
def contentsConcat (es : List TextEntry) : List Char :=
  (es.map TextEntry.content).flatten

/-- Sum of `countPP` over the `content` fields of a list of entries. -/
def sumPP (es : List TextEntry) : Nat :=
  (es.map (fun e => countPP e.content)).sum

/-- Whether an entry is the `ENDLINE` line-break sentinel. -/
def isEndline (e : TextEntry) : Bool :=
  e.color == "ENDLINE"

/-- Number of `ENDLINE` sentinels in a run sequence. -/
def countSent (es : List TextEntry) : Nat :=
  es.countP isEndline

/-- Length of the maximal run of `%` characters at the end of the list. -/
def trailingPct : List Char → Nat
  | [] => 0
  | c :: rest =>
    if c = '%' && rest.all (· = '%') then rest.length + 1
    else trailingPct rest

/-- Declarative characterization of a `%`-escape the validation scan
rejects: a `%` that is preceded by an even number of consecutive `%`
characters (so the non-overlapping scan reads it as the lead of a pair)
and followed by a character other than `%`, `n` and newline. -/
def badPctAt (l : List Char) : Prop :=
  ∃ a c b, l = a ++ '%' :: c :: b ∧ c ≠ '%' ∧ c ≠ 'n' ∧ c ≠ '\n' ∧ trailingPct a % 2 = 0

/-- Declarative characterization of a `§`-escape the validation scan
rejects: a `§` directly followed by another `§`, or by a character outside
the style-code alphabet that is not a newline. -/
def badSectAt (l : List Char) : Prop :=
  ∃ a c b, l = a ++ '§' :: c :: b ∧ (c = '§' ∨ (c ∉ styleChars ∧ c ≠ '\n'))

/-- Whether the `%`-validation scan ends on an unconsumed trailing `%`
(so that appending one more character could pair with it). -/
def pendsPct : List Char → Bool
  | [] => false
  | ['%'] => true
  | '%' :: c :: rest => if c = '\n' then pendsPct (c :: rest) else pendsPct rest
  | _ :: rest => pendsPct rest

/-- Whether the `§`-validation scan ends on an unconsumed trailing `§`. -/
def pendsSect : List Char → Bool
  | [] => false
  | ['§'] => true
  | '§' :: c :: rest => if c = '\n' then pendsSect (c :: rest) else pendsSect rest
  | _ :: rest => pendsSect rest

/-- Classification of one rendered table row of `get_diff`: a plainly
rendered pair is a match, a yellow one-sided row is skipped unformatted
text, a red/green row is a styling mismatch (exactly the rows that set
`success = False`). -/
inductive RowClass where
  | matched
  | skippedUnformatted
  | mismatch
deriving DecidableEq, Repr

/-- One row added to the `rich` table by `get_diff`: the entry shown in the
Original column (if any), the entry shown in the Translation column (if
any), and the row's classification. -/
structure Row where
  left : Option TextEntry
  right : Option TextEntry
  cls : RowClass
deriving DecidableEq, Repr

/-- The row one of the two trailing drain loops of `get_diff` adds for a
leftover entry: yellow (skipped) for default-colored text, red (mismatch,
setting failure) otherwise.  `onLeft` tells which article still has
entries: `true` for the original, `false` for the translation. -/
def mkDrainRow (onLeft : Bool) (e : TextEntry) : Row :=
  if e.color = "0" then
    { left := if onLeft then some e else none,
      right := if onLeft then none else some e,
      cls := RowClass.skippedUnformatted }
  else
    { left := if onLeft then some e else none,
      right := if onLeft then none else some e,
      cls := RowClass.mismatch }

/-- One trailing drain loop of `get_diff` (lines 184-198): walk the
remaining entries of one side, adding one row each; the Bool is `true`
iff no drained entry set `success = False`. -/
def drain (onLeft : Bool) : List TextEntry → Bool × List Row
  | [] => (true, [])
  | e :: rest =>
    let p := drain onLeft rest
    ((if e.color = "0" then p.1 else false), mkDrainRow onLeft e :: p.2)

/-- The main two-cursor walk of `get_diff` (lines 152-182) followed by the
two drain loops, in recursive form: the loop body advances the cursors
exactly as the Python code does, and once one side is exhausted the other
side is drained. -/
def walk : List TextEntry → List TextEntry → Bool × List Row
  | [], tr => drain false tr
  | en, [] => drain true en
  | x :: en, y :: tr =>
    if x.color = "0" ∧ y.color = "0" then
      -- Both are normal text and accepted.
      let p := walk en tr
      (p.1, { left := some x, right := some y, cls := RowClass.matched } :: p.2)
    else if x.color = "0" then
      -- en() is normal text, tr() is not.
      let p := walk en (y :: tr)
      (p.1, { left := some x, right := none, cls := RowClass.skippedUnformatted } :: p.2)
    else if y.color = "0" then
      -- en() is not normal text, tr() is normal text.
      let p := walk (x :: en) tr
      (p.1, { left := none, right := some y, cls := RowClass.skippedUnformatted } :: p.2)
    else if x.color = y.color then
      let p := walk en tr
      (p.1, { left := some x, right := some y, cls := RowClass.matched } :: p.2)
    else
      let p := walk en tr
      (false, { left := some x, right := some y, cls := RowClass.mismatch } :: p.2)
termination_by a b => a.length + b.length
decreasing_by
  all_goals simp_wf
  all_goals omega

/-- `get_diff`: compare two parsed articles, returning the overall success
flag and the rows of the rendered table. -/
def get_diff (en_article translation_article : Article) : Bool × List Row :=
  walk en_article.texts translation_article.texts

/-- One drain loop of `get_diff` in its literal indexed form: `k` is the
loop cursor, every access goes through `List.getElem?`, and an out-of-bounds
access (which the claim says cannot happen) yields `none`. -/
def drainIdxLoop (l : List TextEntry) (onLeft : Bool) (k : Nat) : Option (Bool × List Row) :=
  if k < l.length then
    match l[k]? with
    | some e =>
      match drainIdxLoop l onLeft (k + 1) with
      | some p => some ((if e.color = "0" then p.1 else false), mkDrainRow onLeft e :: p.2)
      | none => none
    | none => none
  else
    some (true, [])
termination_by l.length - k
decreasing_by
  simp_wf
  omega

/-- The main loop of `get_diff` in its literal indexed form: cursors `i`
and `j` advance under the `while` guard `i < len ∧ j < len`, every entry
access goes through `List.getElem?` (an out-of-bounds access yields `none`),
and when the guard fails the translation side and then the original side
are drained. -/
def walkIdx (a b : List TextEntry) (i j : Nat) : Option (Bool × List Row) :=
  if i < a.length ∧ j < b.length then
    match a[i]?, b[j]? with
    | some x, some y =>
      if x.color = "0" ∧ y.color = "0" then
        match walkIdx a b (i + 1) (j + 1) with
        | some p => some (p.1, { left := some x, right := some y, cls := RowClass.matched } :: p.2)
        | none => none
      else if x.color = "0" then
        match walkIdx a b (i + 1) j with
        | some p => some (p.1, { left := some x, right := none, cls := RowClass.skippedUnformatted } :: p.2)
        | none => none
      else if y.color = "0" then
        match walkIdx a b i (j + 1) with
        | some p => some (p.1, { left := none, right := some y, cls := RowClass.skippedUnformatted } :: p.2)
        | none => none
      else if x.color = y.color then
        match walkIdx a b (i + 1) (j + 1) with
        | some p => some (p.1, { left := some x, right := some y, cls := RowClass.matched } :: p.2)
        | none => none
      else
        match walkIdx a b (i + 1) (j + 1) with
        | some p => some (false, { left := some x, right := some y, cls := RowClass.mismatch } :: p.2)
        | none => none
    | _, _ => none
  else
    match drainIdxLoop b false j, drainIdxLoop a true i with
    | some p1, some p2 => some (p1.1 && p2.1, p1.2 ++ p2.2)
    | _, _ => none
termination_by (a.length - i) + (b.length - j)
decreasing_by
  all_goals simp_wf
  all_goals omega

/-- `get_diff` in its literal indexed form, started at cursors `0, 0`. -/
def get_diff_indexed (en_article translation_article : Article) : Option (Bool × List Row) :=
  walkIdx en_article.texts translation_article.texts 0 0


theorem mkDrainRow_cls (onLeft : Bool) (e : TextEntry) :
    (mkDrainRow onLeft e).cls =
      (if e.color = "0" then RowClass.skippedUnformatted else RowClass.mismatch) := by
  by_cases h : e.color = "0" <;> simp [mkDrainRow, h]

theorem drain_rows (onLeft : Bool) (l : List TextEntry) :
    (drain onLeft l).2 = l.map (mkDrainRow onLeft) := by
  induction l with
  | nil => rfl
  | cons e rest ih => simp [drain, ih]

theorem drain_success (onLeft : Bool) (l : List TextEntry) :
    (drain onLeft l).1 = l.all (fun e => e.color == "0") := by
  induction l with
  | nil => rfl
  | cons e rest ih => by_cases h : e.color = "0" <;> simp [drain, h, ih]

theorem drain_success_iff (onLeft : Bool) (l : List TextEntry) :
    (drain onLeft l).1 = true ↔ ∀ r ∈ (drain onLeft l).2, r.cls ≠ RowClass.mismatch := by
  rw [drain_success, drain_rows]
  simp only [List.all_eq_true, List.mem_map, forall_exists_index, and_imp,
    forall_apply_eq_imp_iff₂, mkDrainRow_cls]
  constructor
  · intro h e he
    have hc : e.color = "0" := by simpa using h e he
    simp [hc]
  · intro h e he
    have := h e he
    by_cases hc : e.color = "0"
    · simp [hc]
    · simp [hc] at this

theorem walk_success_iff (a b : List TextEntry) :
    (walk a b).1 = true ↔ ∀ r ∈ (walk a b).2, r.cls ≠ RowClass.mismatch := by
  induction a, b using walk.induct with
  | case1 tr => simpa [walk] using drain_success_iff false tr
  | case2 en hne =>
    obtain ⟨x, en', rfl⟩ : ∃ x en', en = x :: en' := by
      cases en with
      | nil => exact absurd rfl hne
      | cons x en' => exact ⟨x, en', rfl⟩
    simpa [walk] using drain_success_iff true (x :: en')
  | case3 x en y tr h ih => simp [walk, h, ih]
  | case4 x en y tr h hx ih =>
    have hy : ¬ y.color = "0" := fun h0 => h ⟨hx, h0⟩
    simp [walk, hx, hy, ih]
  | case5 x en y tr h hx hy ih => simp [walk, hx, hy, ih]
  | case6 x en y tr h hx hy heq ih => simp [walk, hx, hy, heq, ih]
  | case7 x en y tr h hx hy hne ih => simp [walk, hx, hy, hne]


theorem walk_self (l : List TextEntry) :
    (walk l l).1 = true ∧ ∀ r ∈ (walk l l).2, r.cls = RowClass.matched := by
  induction l with
  | nil => simp [walk, drain]
  | cons x rest ih =>
    by_cases h : x.color = "0"
    · simpa [walk, h] using ih
    · simp [walk, h]
      exact ih

theorem drainIdxLoop_eq (l : List TextEntry) (onLeft : Bool) (k : Nat) :
    drainIdxLoop l onLeft k = some (drain onLeft (l.drop k)) := by
  induction k using drainIdxLoop.induct l onLeft with
  | case1 x hx e he p hp ih =>
    have hdrop : l.drop x = e :: l.drop (x + 1) := by
      rw [List.drop_eq_getElem_cons hx]
      have h2 := List.getElem?_eq_getElem hx
      rw [he] at h2
      rw [Option.some_inj.mp h2.symm]
    rw [ih] at hp
    rw [drainIdxLoop]
    simp [hx, he, ih, hdrop, drain]
  | case2 x hx e he hp ih =>
    rw [ih] at hp
    simp at hp
  | case3 x hx he =>
    have h2 := List.getElem?_eq_getElem hx
    rw [he] at h2
    simp at h2
  | case4 x hx =>
    rw [drainIdxLoop]
    rw [List.drop_eq_nil_of_le (Nat.le_of_not_lt hx)]
    simp [hx, drain]

theorem walkIdx_eq (a b : List TextEntry) (i j : Nat) :
    walkIdx a b i j = some (walk (a.drop i) (b.drop j)) := by
  rw [walkIdx]
  by_cases hij : i < a.length ∧ j < b.length
  · obtain ⟨hi, hj⟩ := hij
    rw [if_pos ⟨hi, hj⟩]
    rw [List.getElem?_eq_getElem hi, List.getElem?_eq_getElem hj]
    rw [List.drop_eq_getElem_cons hi, List.drop_eq_getElem_cons hj]
    have r1 := walkIdx_eq a b (i + 1) (j + 1)
    have r2 := walkIdx_eq a b (i + 1) j
    have r3 := walkIdx_eq a b i (j + 1)
    by_cases h1 : a[i].color = "0" ∧ b[j].color = "0"
    · simp [h1, r1, walk, -List.getElem_cons_drop]
    · by_cases h2 : a[i].color = "0"
      · have hy : ¬ b[j].color = "0" := fun h0 => h1 ⟨h2, h0⟩
        rw [List.drop_eq_getElem_cons hj] at r2
        simp [h2, hy, r2, walk, -List.getElem_cons_drop]
      · by_cases h3 : b[j].color = "0"
        · rw [List.drop_eq_getElem_cons hi] at r3
          simp [h2, h3, r3, walk, -List.getElem_cons_drop]
        · by_cases h4 : a[i].color = b[j].color
          · simp [h2, h3, h4, r1, walk, -List.getElem_cons_drop]
          · simp [h2, h3, h4, r1, walk, -List.getElem_cons_drop]
  · rw [if_neg hij]
    rw [drainIdxLoop_eq, drainIdxLoop_eq]
    rcases Nat.lt_or_ge i a.length with hi | hi
    · have hj : b.length ≤ j := by
        rcases Nat.lt_or_ge j b.length with h | h
        · exact absurd ⟨hi, h⟩ hij
        · exact h
      rw [List.drop_eq_nil_of_le hj]
      cases hda : a.drop i with
      | nil => simp [walk, drain]
      | cons x rest => simp [walk, drain]
    · rw [List.drop_eq_nil_of_le hi]
      simp [walk, drain]
termination_by (a.length - i) + (b.length - j)
decreasing_by
  all_goals simp_wf
  all_goals omega

/-- C5: after the main two-cursor walk of `get_diff` ends, each remaining
entry of the unexhausted side yields exactly one row — `SkippedUnformatted`
when it is default-styled (`color = "0"`), `Mismatch` when it is significant
(styled text or the `ENDLINE` sentinel) — and the returned success boolean
is `true` iff no row produced anywhere in the comparison is classified
`Mismatch`. -/
theorem c5_drain_and_success :
    (∀ (onLeft : Bool) (l : List TextEntry),
      (drain onLeft l).2 = l.map (mkDrainRow onLeft) ∧
      (drain onLeft l).1 = l.all (fun e => e.color == "0") ∧
      ∀ e : TextEntry, (mkDrainRow onLeft e).cls =
        (if e.color = "0" then RowClass.skippedUnformatted else RowClass.mismatch)) ∧
    ∀ en_article translation_article : Article,
      ((get_diff en_article translation_article).1 = true ↔
        ∀ r ∈ (get_diff en_article translation_article).2, r.cls ≠ RowClass.mismatch) :=
  ⟨fun onLeft l => ⟨drain_rows onLeft l, drain_success onLeft l, fun e => mkDrainRow_cls onLeft e⟩,
   fun A B => walk_success_iff A.texts B.texts⟩

/-- Witness for C5 at a concrete drained entry and a concrete article pair. -/
theorem c5_drain_and_success_witness :
    ((drain true [endlineEntry]).2 = [endlineEntry].map (mkDrainRow true) ∧
      (drain true [endlineEntry]).1 = [endlineEntry].all (fun e => e.color == "0") ∧
      ∀ e : TextEntry, (mkDrainRow true e).cls =
        (if e.color = "0" then RowClass.skippedUnformatted else RowClass.mismatch)) ∧
    ((get_diff ⟨[endlineEntry]⟩ ⟨[]⟩).1 = true ↔
      ∀ r ∈ (get_diff ⟨[endlineEntry]⟩ ⟨[]⟩).2, r.cls ≠ RowClass.mismatch) :=
  ⟨c5_drain_and_success.1 true [endlineEntry], c5_drain_and_success.2 ⟨[endlineEntry]⟩ ⟨[]⟩⟩

/-- C6: during the walk, when exactly one of the two current entries is
ignorable (default-styled) and the other is significant, `get_diff` emits a
`SkippedUnformatted` row for the ignorable side alone, advances only that
side's cursor, and leaves the success flag of the rest of the walk
unchanged (both orientations). -/
theorem c6_skip_ignorable_side (x y : TextEntry) (en tr : List TextEntry)
    (hx : x.color = "0") (hy : y.color ≠ "0") :
    walk (x :: en) (y :: tr) =
      ((walk en (y :: tr)).1,
        { left := some x, right := none, cls := RowClass.skippedUnformatted } ::
          (walk en (y :: tr)).2) ∧
    walk (y :: en) (x :: tr) =
      ((walk (y :: en) tr).1,
        { left := none, right := some x, cls := RowClass.skippedUnformatted } ::
          (walk (y :: en) tr).2) := by
  constructor
  · simp [walk, hx, hy]
  · simp [walk, hx, hy]

/-- Witness for C6: a default-styled entry against the line-break sentinel. -/
theorem c6_skip_ignorable_side_witness :
    walk [{ color := "0", content := ['a'] }] [endlineEntry] =
      ((walk [] [endlineEntry]).1,
        { left := some { color := "0", content := ['a'] }, right := none,
          cls := RowClass.skippedUnformatted } :: (walk [] [endlineEntry]).2) ∧
    walk [endlineEntry] [{ color := "0", content := ['a'] }] =
      ((walk [endlineEntry] []).1,
        { left := none, right := some { color := "0", content := ['a'] },
          cls := RowClass.skippedUnformatted } :: (walk [endlineEntry] []).2) :=
  c6_skip_ignorable_side { color := "0", content := ['a'] } endlineEntry [] [] rfl (by decide)

/-- C8: comparing any Article with itself succeeds and classifies every
emitted row as `Matched`. -/
theorem c8_compare_self (A : Article) :
    (get_diff A A).1 = true ∧ ∀ r ∈ (get_diff A A).2, r.cls = RowClass.matched :=
  walk_self A.texts

/-- Witness for C8 at a concrete article. -/
theorem c8_compare_self_witness :
    (get_diff ⟨[{ color := "a", content := ['x'] }, endlineEntry]⟩
        ⟨[{ color := "a", content := ['x'] }, endlineEntry]⟩).1 = true ∧
    ∀ r ∈ (get_diff ⟨[{ color := "a", content := ['x'] }, endlineEntry]⟩
        ⟨[{ color := "a", content := ['x'] }, endlineEntry]⟩).2,
      r.cls = RowClass.matched :=
  c8_compare_self ⟨[{ color := "a", content := ['x'] }, endlineEntry]⟩

/-- C9: the alignment engine cannot fail — for every pair of Articles the
literal indexed form of `get_diff`, in which every entry access returns
`none` when out of bounds, runs to completion and returns the comparison
result: every index access is in bounds, and a styling disagreement is a
reported result rather than an error. -/
theorem c9_alignment_engine_total (en_article translation_article : Article) :
    get_diff_indexed en_article translation_article =
      some (get_diff en_article translation_article) := by
  simp [get_diff_indexed, get_diff, walkIdx_eq]

/-- Witness for C9 at a concrete article pair. -/
theorem c9_alignment_engine_total_witness :
    get_diff_indexed ⟨[endlineEntry]⟩ ⟨[{ color := "0", content := ['y'] }]⟩ =
      some (get_diff ⟨[endlineEntry]⟩ ⟨[{ color := "0", content := ['y'] }]⟩) :=
  c9_alignment_engine_total ⟨[endlineEntry]⟩ ⟨[{ color := "0", content := ['y'] }]⟩

/-- C2 (amended): a modifier escape (`§k §l §m §n §o`) changes no color
state and the `§` produces no run, but the modifier letter itself is not
stripped: the scanner skips only the `§` and rescans from the letter, so
the line behaves as if the `§` alone were removed, and a line containing
only a modifier escape emits one default-colored run holding the letter. -/
theorem c2_modifier_keeps_letter (c : Char) (rest : List Char) (col : String)
    (hc : c ∈ (['k', 'l', 'm', 'n', 'o'] : List Char)) :
    lineEntriesFrom ('§' :: c :: rest) col = lineEntriesFrom (c :: rest) col ∧
    lineEntriesFrom ['§', c] col = [{ color := col, content := [c] }] := by
  fin_cases hc <;>
    exact ⟨by simp [lineEntriesFrom, hexChars],
           by simp [lineEntriesFrom, hexChars, List.takeWhile, List.dropWhile]⟩

/-- Witness for C2 at the modifier code `k`. -/
theorem c2_modifier_keeps_letter_witness :
    lineEntriesFrom ['§', 'k', 'x'] "0" = lineEntriesFrom ['k', 'x'] "0" ∧
    lineEntriesFrom ['§', 'k'] "0" = [{ color := "0", content := ['k'] }] := by
  have h := c2_modifier_keeps_letter 'k' ['x'] "0" (by decide)
  have h2 := c2_modifier_keeps_letter 'k' [] "0" (by decide)
  exact ⟨h.1, h2.2⟩

/-- C2 counterexample: the claim says a line containing only a modifier
escape emits zero runs (the same as the line with the code stripped), but
parsing `§k` emits one run with content `k`, unlike parsing the empty
string. -/
theorem c2_counterexample :
    parse_questbook_string ['§', 'k'] =
      some { texts := [{ color := "0", content := ['k'] }] } ∧
    parse_questbook_string [] = some { texts := [] } ∧
    parse_questbook_string ['§', 'k'] ≠ parse_questbook_string [] := by
  refine ⟨?_, ?_, ?_⟩ <;>
    simp [parse_questbook_string, splitPn, validPct, validSect, appendLine,
      lineEntriesFrom, styleChars, hexChars, List.takeWhile, List.dropWhile]

theorem contentsConcat_lineEntries (l : List Char) (col : String) :
    contentsConcat (lineEntriesFrom l col) = stripSect l := by
  induction l, col using lineEntriesFrom.induct with
  | case1 col => simp [lineEntriesFrom, stripSect, contentsConcat]
  | case2 rest col ih => simpa [lineEntriesFrom, stripSect, contentsConcat] using ih
  | case3 c rest col h1 h2 ih =>
    simpa [lineEntriesFrom, stripSect, contentsConcat, h1, h2] using ih
  | case4 c rest col h1 h2 ih =>
    have hs : ¬(c = 'r' ∨ c ∈ hexChars) := by simp [h1, h2]
    simpa [lineEntriesFrom, stripSect, contentsConcat, h1, h2, hs] using ih
  | case5 col => simp [lineEntriesFrom, stripSect, contentsConcat]
  | case6 c rest col h1 h2 ih =>
    simp [lineEntriesFrom, stripSect, contentsConcat, h1, h2] at ih ⊢
    exact ih

theorem lineEntriesFrom_content_ne (l : List Char) (col : String) :
    ∀ e ∈ lineEntriesFrom l col, e.content ≠ [] := by
  induction l, col using lineEntriesFrom.induct with
  | case1 col => simp [lineEntriesFrom]
  | case2 rest col ih => simpa [lineEntriesFrom] using ih
  | case3 c rest col h1 h2 ih => simpa [lineEntriesFrom, h1, h2] using ih
  | case4 c rest col h1 h2 ih => simpa [lineEntriesFrom, h1, h2] using ih
  | case5 col => simp [lineEntriesFrom]
  | case6 c rest col h1 h2 ih =>
    intro e he
    simp [lineEntriesFrom, h1, h2] at he
    rcases he with he | he
    · simp [he]
    · exact ih e (by simpa using he)

theorem mem_foldl_appendLine (ls : List (List Char)) (acc : List TextEntry) (e : TextEntry)
    (he : e ∈ ls.foldl appendLine acc) :
    e ∈ acc ∨ e = endlineEntry ∨ ∃ l ∈ ls, e ∈ lineEntriesFrom l "0" := by
  induction ls generalizing acc with
  | nil => exact .inl (by simpa using he)
  | cons l ls ih =>
    rcases ih (appendLine acc l) (by simpa using he) with h | h | ⟨l', hl', hel'⟩
    · rw [appendLine] at h
      rcases List.mem_append.mp h with h | h
      · by_cases hacc : acc.isEmpty
        · rw [if_pos hacc] at h
          exact .inl h
        · rw [if_neg hacc] at h
          rcases List.mem_append.mp h with h | h
          · exact .inl h
          · exact .inr (.inl (by simpa using h))
      · exact .inr (.inr ⟨l, by simp, h⟩)
    · exact .inr (.inl h)
    · exact .inr (.inr ⟨l', by simp [hl'], hel'⟩)

theorem parse_texts_eq (raw : List Char) (art : Article)
    (h : parse_questbook_string raw = some art) :
    art.texts = (splitPn raw).foldl appendLine [] := by
  rw [parse_questbook_string] at h
  by_cases hc : (splitPn raw).all (fun l => validPct l && validSect l)
  · simp only [hc, if_true] at h
    cases h
    rfl
  · simp [hc] at h

/-- C4 (amended): for every raw string that parses successfully, every
non-sentinel run's content is a non-empty string, and the concatenation of
the contents of one line's runs equals that line's text with every color
or reset escape (`§` followed by one of `[0-9a-fr]`) removed and every
other `§` dropped on its own — the character after such a `§` (e.g. a
modifier letter) is kept, and `%%` is kept as-is. -/
theorem c4_contents (raw : List Char) (art : Article)
    (h : parse_questbook_string raw = some art) :
    (∀ e ∈ art.texts, isEndline e = false → e.content ≠ []) ∧
    ∀ l ∈ splitPn raw, contentsConcat (lineEntriesFrom l "0") = stripSect l := by
  constructor
  · intro e he hse
    rw [parse_texts_eq raw art h] at he
    rcases mem_foldl_appendLine _ _ _ he with h0 | h0 | ⟨l, _, hel⟩
    · simp at h0
    · rw [h0] at hse
      simp [isEndline, endlineEntry] at hse
    · exact lineEntriesFrom_content_ne l "0" e hel
  · intro l _
    exact contentsConcat_lineEntries l "0"

/-- Witness for C4 on the raw string `x`. -/
theorem c4_contents_witness :
    (∀ e ∈ ({ texts := [{ color := "0", content := ['x'] }] } : Article).texts,
      isEndline e = false → e.content ≠ []) ∧
    ∀ l ∈ splitPn ['x'], contentsConcat (lineEntriesFrom l "0") = stripSect l :=
  c4_contents ['x'] { texts := [{ color := "0", content := ['x'] }] }
    (by simp [parse_questbook_string, splitPn, validPct, validSect, appendLine,
      lineEntriesFrom, List.takeWhile, List.dropWhile])

/-- C4 counterexample: parsing the line `§l` emits one run with content
`l`, while removing every escape sequence in the spec's sense (including
the modifier escape `§l`) leaves the empty string — so the concatenation
of run contents is not the line's text with all escape sequences removed. -/
theorem c4_counterexample :
    parse_questbook_string ['§', 'l'] =
      some { texts := [{ color := "0", content := ['l'] }] } ∧
    stripEscapesSpec ['§', 'l'] = [] ∧
    contentsConcat [{ color := "0", content := ['l'] }] ≠ stripEscapesSpec ['§', 'l'] := by
  refine ⟨?_, by decide, by decide⟩
  simp [parse_questbook_string, splitPn, validPct, validSect, appendLine,
    lineEntriesFrom, styleChars, hexChars, List.takeWhile, List.dropWhile]

theorem countPP_append (p q : List Char) (hq : q.head? ≠ some '%') :
    countPP (p ++ q) = countPP p + countPP q := by
  induction p using countPP.induct with
  | case1 rest ih =>
    simp only [List.cons_append] at ih ⊢
    simp only [countPP]
    omega
  | case2 c rest hg ih =>
    have h1 : countPP (c :: rest) = countPP rest := by simp [countPP, hg]
    have hg2 : ∀ (r1 : List Char), c = '%' → rest ++ q = '%' :: r1 → False := by
      intro r1 hc hr
      cases rest with
      | nil =>
        simp at hr
        exact hq (by rw [hr]; rfl)
      | cons d rs =>
        simp at hr
        exact hg rs hc (by rw [hr.1])
    have h2 : countPP (c :: (rest ++ q)) = countPP (rest ++ q) := by simp [countPP, hg2]
    simp only [List.cons_append]
    rw [h2, h1, ih]
  | case3 => simp [countPP]

theorem dropWhile_head_not (p : Char → Bool) (l : List Char) :
    ∀ d ∈ (l.dropWhile p).head?, p d = false := by
  induction l with
  | nil => simp [List.dropWhile]
  | cons x xs ih =>
    by_cases hx : p x
    · simpa [List.dropWhile, hx] using ih
    · simp [List.dropWhile, hx]

theorem sumPP_lineEntries (l : List Char) (col : String) :
    sumPP (lineEntriesFrom l col) = countPP l := by
  induction l, col using lineEntriesFrom.induct with
  | case1 col => simp [lineEntriesFrom, sumPP, countPP]
  | case2 rest col ih => simpa [lineEntriesFrom, countPP] using ih
  | case3 c rest col h1 h2 ih =>
    have hc : ¬ c = '%' := by
      intro h
      rw [h] at h2
      exact absurd h2 (by decide)
    simpa [lineEntriesFrom, h1, h2, countPP, hc] using ih
  | case4 c rest col h1 h2 ih =>
    simpa [lineEntriesFrom, h1, h2, countPP] using ih
  | case5 col => simp [lineEntriesFrom, sumPP, countPP]
  | case6 c rest col h1 h2 ih =>
    have hq : (rest.dropWhile (· ≠ '§')).head? ≠ some '%' := by
      intro hcontra
      have := dropWhile_head_not (fun x => decide (x ≠ '§')) rest '%' (by rw [hcontra]; rfl)
      simp at this
    have e1 : lineEntriesFrom (c :: rest) col =
        { color := col, content := c :: rest.takeWhile (· ≠ '§') } ::
          lineEntriesFrom (rest.dropWhile (· ≠ '§')) col := by
      simp [lineEntriesFrom, h1, h2]
    rw [e1]
    have e2 : sumPP ({ color := col, content := c :: rest.takeWhile (· ≠ '§') } ::
        lineEntriesFrom (rest.dropWhile (· ≠ '§')) col) =
        countPP (c :: rest.takeWhile (· ≠ '§')) +
          sumPP (lineEntriesFrom (rest.dropWhile (· ≠ '§')) col) := by
      simp [sumPP]
    rw [e2, ih]
    have e3 := countPP_append (c :: rest.takeWhile (· ≠ '§')) (rest.dropWhile (· ≠ '§')) hq
    rw [List.cons_append, List.takeWhile_append_dropWhile] at e3
    omega

/-- C7: the literal-percent escape `%%` is never expanded: for every input
that parses successfully, each line's count of adjacent `%%` positions is
reproduced exactly, within single runs, by the contents of the runs the
line emits (if `%%` were collapsed to `%`, or split across runs, the counts
would drop). -/
theorem c7_double_percent_preserved (raw : List Char) (art : Article)
    (_h : parse_questbook_string raw = some art) :
    ∀ l ∈ splitPn raw, sumPP (lineEntriesFrom l "0") = countPP l := by
  intro l _
  exact sumPP_lineEntries l "0"

/-- Witness for C7 on the raw string `%%`, instantiated at its single line. -/
theorem c7_double_percent_preserved_witness :
    sumPP (lineEntriesFrom ['%', '%'] "0") = countPP ['%', '%'] :=
  c7_double_percent_preserved ['%', '%']
    { texts := [{ color := "0", content := ['%', '%'] }] }
    (by simp [parse_questbook_string, splitPn, validPct, validSect, appendLine,
      lineEntriesFrom, List.takeWhile, List.dropWhile])
    ['%', '%'] (by decide)

theorem singleton_ne_ENDLINE (c : Char) : String.singleton c ≠ "ENDLINE" := by
  intro h
  have h2 := congrArg (fun s => s.data.length) h
  simp [String.singleton] at h2

theorem lineEntries_no_endline (l : List Char) (col : String) :
    col ≠ "ENDLINE" → ∀ e ∈ lineEntriesFrom l col, isEndline e = false := by
  induction l, col using lineEntriesFrom.induct with
  | case1 col => simp [lineEntriesFrom]
  | case2 rest col ih =>
    exact fun _ e he => ih (by decide) e (by simpa [lineEntriesFrom] using he)
  | case3 c rest col h1 h2 ih =>
    exact fun _ e he =>
      ih (singleton_ne_ENDLINE c) e (by simpa [lineEntriesFrom, h1, h2] using he)
  | case4 c rest col h1 h2 ih =>
    exact fun hcol e he => ih hcol e (by simpa [lineEntriesFrom, h1, h2] using he)
  | case5 col => simp [lineEntriesFrom]
  | case6 c rest col h1 h2 ih =>
    intro hcol e he
    simp [lineEntriesFrom, h1, h2] at he
    rcases he with he | he
    · simp [he, isEndline, hcol]
    · exact ih hcol e (by simpa using he)

theorem countSent_lineEntries (l : List Char) : countSent (lineEntriesFrom l "0") = 0 := by
  rw [countSent, List.countP_eq_zero]
  intro e he
  simpa using lineEntries_no_endline l "0" (by decide) e he

theorem countSent_foldl_ne (ls : List (List Char)) (acc : List TextEntry) (hacc : acc ≠ []) :
    countSent (ls.foldl appendLine acc) = countSent acc + ls.length := by
  induction ls generalizing acc with
  | nil => simp
  | cons l ls ih =>
    have hne : ¬ acc.isEmpty := by simpa [List.isEmpty_iff] using hacc
    have hstep : countSent (appendLine acc l) = countSent acc + 1 := by
      rw [appendLine, if_neg hne]
      have h0 : List.countP isEndline (lineEntriesFrom l "0") = 0 := by
        simpa [countSent] using countSent_lineEntries l
      simp [countSent, List.countP_append, h0, isEndline, endlineEntry]
    have hnn : appendLine acc l ≠ [] := by
      rw [appendLine, if_neg hne]
      simp
    rw [List.foldl_cons, ih (appendLine acc l) hnn, hstep]
    simp only [List.length_cons]
    omega

theorem countSent_foldl_nil (ls : List (List Char)) :
    countSent (ls.foldl appendLine []) =
      ls.length - 1 - ls.findIdx (fun l => !(lineEntriesFrom l "0").isEmpty) := by
  induction ls with
  | nil => simp [countSent]
  | cons l ls ih =>
    have ha : appendLine [] l = lineEntriesFrom l "0" := by simp [appendLine]
    rw [List.foldl_cons, ha]
    by_cases hE : lineEntriesFrom l "0" = []
    · rw [hE, ih, List.findIdx_cons]
      simp only [hE, List.isEmpty_nil, Bool.not_true, cond_false]
      simp [Nat.sub_sub]
      omega
    · rw [countSent_foldl_ne ls _ hE, countSent_lineEntries, List.findIdx_cons]
      have hb : (!(lineEntriesFrom l "0").isEmpty) = true := by
        simpa [List.isEmpty_iff] using hE
      simp only [hb, cond_true]
      simp

theorem foldl_appendLine_head (ls : List (List Char)) (acc : List TextEntry) (hacc : acc ≠ []) :
    (ls.foldl appendLine acc).head? = acc.head? := by
  induction ls generalizing acc with
  | nil => rfl
  | cons l ls ih =>
    have hne : ¬ acc.isEmpty := by simpa [List.isEmpty_iff] using hacc
    have hnn : appendLine acc l ≠ [] := by
      rw [appendLine, if_neg hne]
      simp
    rw [List.foldl_cons, ih (appendLine acc l) hnn]
    rw [appendLine, if_neg hne]
    obtain ⟨a, as, rfl⟩ := List.exists_cons_of_ne_nil hacc
    simp

theorem foldl_head_not_endline (ls : List (List Char)) :
    ∀ e, (ls.foldl appendLine []).head? = some e → isEndline e = false := by
  induction ls with
  | nil => simp
  | cons l ls ih =>
    intro e he
    have ha : appendLine [] l = lineEntriesFrom l "0" := by simp [appendLine]
    rw [List.foldl_cons, ha] at he
    by_cases hE : lineEntriesFrom l "0" = []
    · rw [hE] at he
      exact ih e he
    · rw [foldl_appendLine_head ls _ hE] at he
      exact lineEntries_no_endline l "0" (by decide) e (List.mem_of_mem_head? he)

/-- C1 (amended): for every raw string whose lines all pass validation,
`parse` succeeds, and the sentinel is appended exactly at the start of each
line whose processing begins with a nonempty `texts` list: the Article
contains `(k+1) - 1 - m` LineBreak sentinels, where `k+1` is the number of
`%n`-delimited lines and `m` is the index of the first line emitting at
least one run (`k - m` sentinels; zero when no line emits a run), and a
sentinel never appears as the first run.  Sentinels can, however, appear as
the last run or adjacent to one another when lines emit zero runs. -/
theorem c1_sentinel_count (raw : List Char)
    (h : ∀ l ∈ splitPn raw, validPct l = true ∧ validSect l = true) :
    ∃ art, parse_questbook_string raw = some art ∧
      countSent art.texts =
        (splitPn raw).length - 1 -
          (splitPn raw).findIdx (fun l => !(lineEntriesFrom l "0").isEmpty) ∧
      ∀ e, art.texts.head? = some e → isEndline e = false := by
  have hall : (splitPn raw).all (fun l => validPct l && validSect l) = true := by
    rw [List.all_eq_true]
    intro l hl
    simp [(h l hl).1, (h l hl).2]
  refine ⟨⟨(splitPn raw).foldl appendLine []⟩, ?_, ?_, ?_⟩
  · rw [parse_questbook_string]
    simp [hall]
  · exact countSent_foldl_nil (splitPn raw)
  · exact foldl_head_not_endline (splitPn raw)

/-- Witness for C1 on the raw string `a%n%nb` (three lines, middle empty):
two sentinels, first run not a sentinel. -/
theorem c1_sentinel_count_witness :
    ∃ art, parse_questbook_string ['a', '%', 'n', '%', 'n', 'b'] = some art ∧
      countSent art.texts =
        (splitPn ['a', '%', 'n', '%', 'n', 'b']).length - 1 -
          (splitPn ['a', '%', 'n', '%', 'n', 'b']).findIdx
            (fun l => !(lineEntriesFrom l "0").isEmpty) ∧
      ∀ e, art.texts.head? = some e → isEndline e = false :=
  c1_sentinel_count ['a', '%', 'n', '%', 'n', 'b'] (by decide)

/-- C1 counterexample: parsing `a%n` (two lines, the second empty) places
the LineBreak sentinel as the last run of the Article, refuting the claim
that a sentinel never appears as the last run. -/
theorem c1_counterexample :
    parse_questbook_string ['a', '%', 'n'] =
      some { texts := [{ color := "0", content := ['a'] }, endlineEntry] } ∧
    isEndline endlineEntry = true := by
  constructor
  · simp [parse_questbook_string, splitPn, validPct, validSect, appendLine,
      lineEntriesFrom, endlineEntry, List.takeWhile, List.dropWhile]
  · decide

theorem takeWhile_append_last (p : Char → Bool) (x : Char) (hx : p x = false) (l : List Char) :
    (l ++ [x]).takeWhile p = l.takeWhile p := by
  induction l with
  | nil => simp [List.takeWhile, hx]
  | cons c cs ih =>
    cases hp : p c <;> simp [List.takeWhile_cons, hp, ih]

theorem dropWhile_append_last (p : Char → Bool) (x : Char) (hx : p x = false) (l : List Char) :
    (l ++ [x]).dropWhile p = l.dropWhile p ++ [x] := by
  induction l with
  | nil => simp [List.dropWhile, hx]
  | cons c cs ih =>
    cases hp : p c <;> simp [List.dropWhile_cons, hp, ih]

theorem lineEntriesFrom_cons_ne (c : Char) (rest : List Char) (col : String) (hc : c ≠ '§') :
    lineEntriesFrom (c :: rest) col =
      { color := col, content := c :: rest.takeWhile (· ≠ '§') } ::
        lineEntriesFrom (rest.dropWhile (· ≠ '§')) col := by
  have h1 : ∀ (c1 : Char) (r1 : List Char), c = '§' → rest = c1 :: r1 → False := fun _ _ h _ => hc h
  have h2 : c = '§' → rest = [] → False := fun h _ => hc h
  simp [lineEntriesFrom, h1, h2]

theorem lineEntries_append_sect (l : List Char) (col : String) :
    lineEntriesFrom (l ++ ['§']) col = lineEntriesFrom l col := by
  induction l, col using lineEntriesFrom.induct with
  | case1 col => simp [lineEntriesFrom]
  | case2 rest col ih => simpa [lineEntriesFrom] using ih
  | case3 c rest col h1 h2 ih => simpa [lineEntriesFrom, h1, h2] using ih
  | case4 c rest col h1 h2 ih => simpa [lineEntriesFrom, h1, h2] using ih
  | case5 col => simp [lineEntriesFrom, hexChars]
  | case6 c rest col h1 h2 ih =>
    have hc : c ≠ '§' := by
      intro h
      cases rest with
      | nil => exact h2 h rfl
      | cons d ds => exact h1 d ds h rfl
    rw [List.cons_append, lineEntriesFrom_cons_ne c (rest ++ ['§']) col hc,
      lineEntriesFrom_cons_ne c rest col hc]
    rw [takeWhile_append_last _ '§' (by simp) rest, dropWhile_append_last _ '§' (by simp) rest,
      ih]

theorem validPct_append_sect (l : List Char) :
    validPct (l ++ ['§']) = (validPct l && !pendsPct l) := by
  induction l using validPct.induct with
  | case1 rest ih => simpa [validPct, pendsPct] using ih
  | case2 c rest hc ih =>
    simp [validPct, pendsPct, hc, ih, Bool.and_assoc]
  | case3 head rest hg ih =>
    by_cases hh : head = '%'
    · subst hh
      cases rest with
      | nil => decide
      | cons d ds => exact absurd rfl (fun h => hg d ds h rfl)
    · have a1 : ∀ (c1 : Char) (r1 : List Char), head = '%' → rest ++ ['§'] = c1 :: r1 → False :=
        fun _ _ h _ => hh h
      have a2 : ∀ (c1 : Char) (r1 : List Char), head = '%' → rest = c1 :: r1 → False :=
        fun _ _ h _ => hh h
      have a3 : head = '%' → rest = [] → False := fun h _ => hh h
      simp [validPct, pendsPct, a1, a2, a3, ih]
  | case4 => decide

theorem validSect_append_sect (l : List Char) :
    validSect (l ++ ['§']) = (validSect l && !pendsSect l) := by
  induction l using validSect.induct with
  | case1 rest ih => simpa [validSect, pendsSect] using ih
  | case2 c rest hc ih =>
    simp [validSect, pendsSect, hc, ih, Bool.and_assoc]
  | case3 head rest hg ih =>
    by_cases hh : head = '§'
    · subst hh
      cases rest with
      | nil => decide
      | cons d ds => exact absurd rfl (fun h => hg d ds h rfl)
    · have a1 : ∀ (c1 : Char) (r1 : List Char), head = '§' → rest ++ ['§'] = c1 :: r1 → False :=
        fun _ _ h _ => hh h
      have a2 : ∀ (c1 : Char) (r1 : List Char), head = '§' → rest = c1 :: r1 → False :=
        fun _ _ h _ => hh h
      have a3 : head = '§' → rest = [] → False := fun h _ => hh h
      simp [validSect, pendsSect, a1, a2, a3, ih]
  | case4 => decide

/-- C10 (amended): appending a lone trailing `§` to a line never changes
the runs the line emits — the scanner silently drops it, producing no run,
no content and no color change — and validation accepts the extended line
whenever the original line was valid and its validation scans do not end on
an unconsumed `%` or `§` that the appended `§` would pair with (parsing
`%§`, for instance, fails, because the trailing `§` completes the invalid
pair `%§`). -/
theorem c10_trailing_sect (l : List Char) (col : String) :
    lineEntriesFrom (l ++ ['§']) col = lineEntriesFrom l col ∧
    (validPct l = true → validSect l = true → pendsPct l = false → pendsSect l = false →
      validPct (l ++ ['§']) = true ∧ validSect (l ++ ['§']) = true) := by
  refine ⟨lineEntries_append_sect l col, ?_⟩
  intro h1 h2 h3 h4
  constructor
  · rw [validPct_append_sect, h1, h3]
    rfl
  · rw [validSect_append_sect, h2, h4]
    rfl

/-- Witness for C10 on the line `ab`. -/
theorem c10_trailing_sect_witness :
    lineEntriesFrom (['a', 'b'] ++ ['§']) "0" = lineEntriesFrom ['a', 'b'] "0" ∧
    validPct (['a', 'b'] ++ ['§']) = true ∧ validSect (['a', 'b'] ++ ['§']) = true :=
  ⟨(c10_trailing_sect ['a', 'b'] "0").1,
   (c10_trailing_sect ['a', 'b'] "0").2 (by decide) (by decide) (by decide) (by decide)⟩

/-- C10 counterexample: the input `%§` is a single line ending in a lone
`§` (no character follows it), yet parse fails — the `%`-validation scan
pairs the `%` with the trailing `§` and rejects it — refuting the claim
that parse succeeds on every such line. -/
theorem c10_counterexample :
    parse_questbook_string ['%', '§'] = none ∧
    (['%', '§'] : List Char).getLast? = some '§' := by
  decide

theorem trailingPct_all (a : List Char) (h : a.all (· = '%') = true) :
    trailingPct a = a.length := by
  induction a with
  | nil => rfl
  | cons c rest ih =>
    simp only [List.all_cons, Bool.and_eq_true] at h
    have hc : c = '%' := by simpa using h.1
    simp [trailingPct, hc, h.2]

theorem trailingPct_cons_ne (x : Char) (hx : x ≠ '%') (a : List Char) :
    trailingPct (x :: a) = trailingPct a := by
  simp [trailingPct, hx]

theorem trailingPct_two_cons (c : Char) (a : List Char) :
    trailingPct ('%' :: c :: a) % 2 = trailingPct a % 2 := by
  by_cases hc : c = '%'
  · subst hc
    by_cases ha : a.all (· = '%') = true
    · have h1 : trailingPct ('%' :: '%' :: a) = a.length + 2 := by
        simp [trailingPct, ha, List.all_cons]
      have h2 : trailingPct a = a.length := trailingPct_all a ha
      omega
    · have h1 : trailingPct ('%' :: '%' :: a) = trailingPct a := by
        simp [trailingPct, ha, List.all_cons]
      omega
  · rw [show trailingPct ('%' :: c :: a) = trailingPct (c :: a) by
      simp [trailingPct, List.all_cons, hc]]
    rw [trailingPct_cons_ne c hc a]

theorem badPctAt_cons_ne (x : Char) (rest : List Char) (hx : x ≠ '%') :
    badPctAt (x :: rest) ↔ badPctAt rest := by
  constructor
  · rintro ⟨a, c, b, hl, h1, h2, h3, hpar⟩
    cases a with
    | nil =>
      injection hl with ha _
      exact absurd ha hx
    | cons a0 as =>
      injection hl with ha0 hl2
      subst ha0
      rw [trailingPct_cons_ne x hx as] at hpar
      exact ⟨as, c, b, hl2, h1, h2, h3, hpar⟩
  · rintro ⟨a, c, b, hl, h1, h2, h3, hpar⟩
    refine ⟨x :: a, c, b, by rw [hl]; rfl, h1, h2, h3, ?_⟩
    rw [trailingPct_cons_ne x hx a]
    exact hpar

theorem badPctAt_two_cons (c : Char) (rest : List Char) :
    badPctAt ('%' :: c :: rest) ↔
      ((c ≠ '%' ∧ c ≠ 'n' ∧ c ≠ '\n') ∨ badPctAt rest) := by
  constructor
  · rintro ⟨a, c', b, hl, h1, h2, h3, hpar⟩
    cases a with
    | nil =>
      injection hl with _ hl2
      injection hl2 with hc hrest
      subst hc
      subst hrest
      exact .inl ⟨h1, h2, h3⟩
    | cons a0 as =>
      injection hl with ha0 hl2
      subst ha0
      cases as with
      | nil =>
        simp [trailingPct] at hpar
      | cons a1 as' =>
        injection hl2 with ha1 hl3
        subst ha1
        rw [trailingPct_two_cons c as'] at hpar
        exact .inr ⟨as', c', b, hl3, h1, h2, h3, hpar⟩
  · rintro (⟨h1, h2, h3⟩ | ⟨a, c', b, hl, h1, h2, h3, hpar⟩)
    · exact ⟨[], c, rest, rfl, h1, h2, h3, by simp [trailingPct]⟩
    · refine ⟨'%' :: c :: a, c', b, by rw [hl]; rfl, h1, h2, h3, ?_⟩
      rw [trailingPct_two_cons c a]
      exact hpar

theorem validPct_iff_not_bad (l : List Char) :
    validPct l = true ↔ ¬ badPctAt l := by
  induction l using validPct.induct with
  | case1 rest ih =>
    have e1 : validPct ('%' :: '\n' :: rest) = validPct ('\n' :: rest) := by simp [validPct]
    have hb1 : badPctAt ('%' :: '\n' :: rest) ↔ badPctAt rest := by
      rw [badPctAt_two_cons]
      simp
    have hb2 : badPctAt ('\n' :: rest) ↔ badPctAt rest := badPctAt_cons_ne '\n' rest (by decide)
    rw [e1, ih]
    exact not_congr (hb2.trans hb1.symm)
  | case2 c rest hc ih =>
    have e1 : validPct ('%' :: c :: rest) = ((c = 'n' || c = '%') && validPct rest) := by
      simp [validPct, hc]
    rw [e1, Bool.and_eq_true, ih, badPctAt_two_cons]
    simp only [Bool.or_eq_true, decide_eq_true_eq]
    constructor
    · rintro ⟨hcn, hbad⟩
      rintro (⟨h1, h2, _⟩ | h)
      · rcases hcn with h | h
        · exact h2 h
        · exact h1 h
      · exact hbad h
    · intro h
      refine ⟨?_, fun hb => h (.inr hb)⟩
      by_cases h1 : c = 'n'
      · exact .inl h1
      · by_cases h2 : c = '%'
        · exact .inr h2
        · exact absurd (.inl ⟨h2, h1, hc⟩) h
  | case3 head rest hg ih =>
    by_cases hh : head = '%'
    · subst hh
      cases rest with
      | nil =>
        simp only [validPct, true_iff]
        rintro ⟨a, c, b, hl, _, _, _, _⟩
        cases a with
        | nil => injection hl with _ h2; cases h2
        | cons a0 as =>
          injection hl with _ h2
          exact absurd h2.symm (by simp)
      | cons d ds => exact absurd rfl (fun h => hg d ds h rfl)
    · have e1 : validPct (head :: rest) = validPct rest := by
        have a2 : ∀ (c1 : Char) (r1 : List Char), head = '%' → rest = c1 :: r1 → False :=
          fun _ _ h _ => hh h
        simp [validPct, a2]
      rw [e1, ih]
      exact not_congr (badPctAt_cons_ne head rest hh).symm
  | case4 =>
    simp only [validPct, true_iff]
    rintro ⟨a, c, b, hl, _, _, _, _⟩
    cases a <;> simp at hl

theorem badSectAt_cons_ne (x : Char) (rest : List Char) (hx : x ≠ '§') :
    badSectAt (x :: rest) ↔ badSectAt rest := by
  constructor
  · rintro ⟨a, c, b, hl, hc⟩
    cases a with
    | nil =>
      injection hl with ha _
      exact absurd ha hx
    | cons a0 as =>
      injection hl with ha0 hl2
      exact ⟨as, c, b, hl2, hc⟩
  · rintro ⟨a, c, b, hl, hc⟩
    exact ⟨x :: a, c, b, by rw [hl]; rfl, hc⟩

theorem badSectAt_two_cons (c : Char) (rest : List Char) :
    badSectAt ('§' :: c :: rest) ↔
      ((c = '§' ∨ (c ∉ styleChars ∧ c ≠ '\n')) ∨ badSectAt rest) := by
  constructor
  · rintro ⟨a, c', b, hl, hc⟩
    cases a with
    | nil =>
      injection hl with _ hl2
      injection hl2 with hc2 hrest
      subst hc2
      subst hrest
      exact .inl hc
    | cons a0 as =>
      injection hl with ha0 hl2
      subst ha0
      cases as with
      | nil =>
        injection hl2 with hc2 hrest
        exact .inl (.inl hc2)
      | cons a1 as' =>
        injection hl2 with ha1 hl3
        exact .inr ⟨as', c', b, hl3, hc⟩
  · rintro (hc | ⟨a, c', b, hl, hc⟩)
    · exact ⟨[], c, rest, rfl, hc⟩
    · exact ⟨'§' :: c :: a, c', b, by rw [hl]; rfl, hc⟩

theorem validSect_iff_not_bad (l : List Char) :
    validSect l = true ↔ ¬ badSectAt l := by
  induction l using validSect.induct with
  | case1 rest ih =>
    have e1 : validSect ('§' :: '\n' :: rest) = validSect ('\n' :: rest) := by simp [validSect]
    have hb1 : badSectAt ('§' :: '\n' :: rest) ↔ badSectAt rest := by
      rw [badSectAt_two_cons]
      simp [styleChars]
    have hb2 : badSectAt ('\n' :: rest) ↔ badSectAt rest := badSectAt_cons_ne '\n' rest (by decide)
    rw [e1, ih]
    exact not_congr (hb2.trans hb1.symm)
  | case2 c rest hc ih =>
    have e1 : validSect ('§' :: c :: rest) = ((c ∈ styleChars : Bool) && validSect rest) := by
      simp [validSect, hc]
    rw [e1, Bool.and_eq_true, ih, badSectAt_two_cons]
    by_cases hcs : c ∈ styleChars
    · have hcq : c ≠ '§' := by
        intro h
        rw [h] at hcs
        exact absurd hcs (by decide)
      simp [hcs, hcq]
    · simp [hcs, hc]
  | case3 head rest hg ih =>
    by_cases hh : head = '§'
    · subst hh
      cases rest with
      | nil =>
        simp only [validSect, true_iff]
        rintro ⟨a, c, b, hl, _⟩
        cases a with
        | nil => injection hl with _ h2; cases h2
        | cons a0 as =>
          injection hl with _ h2
          exact absurd h2.symm (by simp)
      | cons d ds => exact absurd rfl (fun h => hg d ds h rfl)
    · have e1 : validSect (head :: rest) = validSect rest := by
        have a2 : ∀ (c1 : Char) (r1 : List Char), head = '§' → rest = c1 :: r1 → False :=
          fun _ _ h _ => hh h
        simp [validSect, a2]
      rw [e1, ih]
      exact not_congr (badSectAt_cons_ne head rest hh).symm
  | case4 =>
    simp only [validSect, true_iff]
    rintro ⟨a, c, b, hl, _⟩
    cases a <;> simp at hl

/-- C3 (amended): parse fails exactly when some `%n`-delimited line
contains an escape the non-overlapping left-to-right scan rejects: a `%`
preceded by an even number of consecutive `%` characters (so it is read as
an escape lead, not as the second half of a `%%` pair) and followed by a
character other than `%`, `n` and newline, or a `§` followed by another
`§` or by a non-newline character outside the style-code alphabet.  On
such input it returns `none` — no partial Article — and on every other
input it succeeds.  (In particular an input may contain a two-character
sequence `%x` with `x ∉ {n, %}` and still parse, when that `%` is consumed
as the second half of a `%%` pair; see the counterexample.) -/
theorem c3_failure_characterization (raw : List Char) :
    (parse_questbook_string raw).isSome = true ↔
      ∀ l ∈ splitPn raw, ¬ badPctAt l ∧ ¬ badSectAt l := by
  rw [parse_questbook_string]
  by_cases hall : (splitPn raw).all (fun l => validPct l && validSect l) = true
  · rw [if_pos hall]
    simp only [Option.isSome_some, true_iff]
    intro l hl
    have h2 := (List.all_eq_true.mp hall) l hl
    rw [Bool.and_eq_true] at h2
    exact ⟨(validPct_iff_not_bad l).mp h2.1, (validSect_iff_not_bad l).mp h2.2⟩
  · rw [if_neg hall]
    simp only [Option.isSome_none, Bool.false_eq_true, false_iff]
    intro h
    apply hall
    rw [List.all_eq_true]
    intro l hl
    rw [Bool.and_eq_true]
    exact ⟨(validPct_iff_not_bad l).mpr (h l hl).1, (validSect_iff_not_bad l).mpr (h l hl).2⟩

/-- Witness for C3 on the invalid input `%x`. -/
theorem c3_failure_characterization_witness :
    (parse_questbook_string ['%', 'x']).isSome = true ↔
      ∀ l ∈ splitPn ['%', 'x'], ¬ badPctAt l ∧ ¬ badSectAt l :=
  c3_failure_characterization ['%', 'x']

/-- C3 counterexample: the input `%%a` contains the two-character sequence
`%a` with `a ∉ {n, %}` (its `%` is the second character of the input), yet
parse succeeds, because the non-overlapping validation scan consumes the
leading `%%` as a literal-percent pair. -/
theorem c3_counterexample :
    (['%', '%', 'a'] : List Char) = ['%'] ++ '%' :: 'a' :: [] ∧
    parse_questbook_string ['%', '%', 'a'] =
      some { texts := [{ color := "0", content := ['%', '%', 'a'] }] } := by
  refine ⟨rfl, ?_⟩
  simp [parse_questbook_string, splitPn, validPct, validSect, appendLine,
    lineEntriesFrom, List.takeWhile, List.dropWhile]
